import Mathlib

/-!
# Verification of the `http-tweak` HTTP/1.1 server core

Shallow embedding of the request parser (`http::incoming_request::parse_bytes`),
the response finalization path (`http::response::~response`), the per-connection
outbound message queue of `http::server::listen`, and the JSON string helpers
(`utf8_to_json` / `json_to_utf8`) of `tweak.cpp`.

C++ strings are modelled as `List Char` (the parser and the JSON helpers treat
them as flat byte/char sequences); machine integers are modelled as `Nat` with
explicit `% 2 ^ w` where truncation matters.  Exceptions thrown by library
calls (`std::stoul`) are modelled as an explicit abnormal outcome.
-/

set_option autoImplicit false

namespace Http

/-- Parser mode, mirroring the `enum { RequestLine, HeaderLine, Body }` of
`http::incoming_request` (http.hpp). -/
inductive Mode where
  | RequestLine
  | HeaderLine
  | Body
deriving DecidableEq, Repr

/-- The four request fields of `http::request` (method, url, ordered header
list, body); this is what the completion callback observes. -/
structure Req where
  method : List Char
  url : List Char
  headers : List (List Char × List Char)
  body : List Char
deriving DecidableEq, Repr

/-- Full parser state of `http::incoming_request`: the `request` fields plus
`mode`, `content_remains` (a `uint32_t`) and the line accumulation buffer. -/
structure IncomingRequest where
  method : List Char := []
  url : List Char := []
  headers : List (List Char × List Char) := []
  body : List Char := []
  mode : Mode := .RequestLine
  content_remains : Nat := 0
  line : List Char := []
deriving DecidableEq, Repr

/-- A freshly constructed `incoming_request` (also the result of `reset()`). -/
def IncomingRequest.init : IncomingRequest := {}

/-- The byte-level lowercase fold from `case_insensitive_equals`:
`if (c >= 'A' && c <= 'Z') c |= 0x20;` (http.hpp lines 133-136). -/
def lowerByte (c : Char) : Char :=
  if 'A' ≤ c ∧ c ≤ 'Z' then Char.ofNat (c.toNat ||| 0x20) else c

/-- `http::case_insensitive_equals` (http.hpp lines 130-140): size check, then
per-position comparison after folding each char with `lowerByte`. -/
def case_insensitive_equals (a b : List Char) : Bool :=
  if a.length ≠ b.length then false
  else (a.zip b).all fun cc => lowerByte cc.1 == lowerByte cc.2

/-- One iteration of the header-value whitespace-folding loop at the
header/body boundary (http.hpp lines 187-195): a space or tab appends a
single `' '` unless `value` is empty or already ends in `' '`; any other
char is appended verbatim. -/
def foldStep (value : List Char) (c : Char) : List Char :=
  if c == ' ' || c == '\t' then
    if !value.isEmpty && value.getLast? != some ' ' then value ++ [' '] else value
  else value ++ [c]

/-- Whole-value folding (http.hpp lines 185-197): run the loop, then trim one
trailing `' '`. -/
def foldValue (v : List Char) : List Char :=
  let value := v.foldl foldStep []
  if !value.isEmpty && value.getLast? == some ' ' then value.dropLast else value

/-- The whitespace set of C `isspace` (used by `std::stoul` / `strtoul`). -/
def isCSpace (c : Char) : Bool :=
  c == ' ' || c == '\t' || c == '\n' || c == '\x0b' || c == '\x0c' || c == '\r'

/-- Models `std::stoul(s)` in base 10: skip leading whitespace, optional
sign, then decimal digits.  Returns `none` when no digit is found
(`std::invalid_argument`) or when the magnitude exceeds `ULONG_MAX`
(`std::out_of_range`); both are exceptions, which the parser never catches.
A leading `'-'` wraps modulo `2 ^ 64` as in `strtoul`. -/
def stoulM (s : List Char) : Option Nat :=
  let cs := s.dropWhile isCSpace
  let signed :=
    match cs with
    | '-' :: rest => (true, rest)
    | '+' :: rest => (false, rest)
    | _ => (false, cs)
  let ds := signed.2.takeWhile Char.isDigit
  if ds.isEmpty then none
  else
    let n := ds.foldl (fun a c => 10 * a + (c.toNat - '0'.toNat)) 0
    if n < 2 ^ 64 then some (if signed.1 then (2 ^ 64 - n) % 2 ^ 64 else n) else none

/-- The `Content-Length` scan at the header/body boundary (http.hpp lines
200-205): every header whose name compares equal under
`case_insensitive_equals` assigns `content_remains = std::stoul(value)`
(truncated by the `uint32_t` assignment); the last match wins.  `none`
models the uncaught exception thrown by `std::stoul`. -/
def scanCL : List (List Char × List Char) → Nat → Option Nat
  | [], cur => some cur
  | (n, v) :: rest, cur =>
    if case_insensitive_equals n "Content-Length".data then
      match stoulM v with
      | none => none
      | some x => scanCL rest (x % 2 ^ 32)
    else scanCL rest cur

/-- `std::string::find(ch, pos)`: index of the first occurrence of `ch` at
position `≥ pos`; `none` models `std::string::npos`. -/
def findFrom (s : List Char) (ch : Char) (pos : Nat) : Option Nat :=
  match (s.drop pos).findIdx? (· == ch) with
  | none => none
  | some i => some (pos + i)

/-- Outcome of one parser step: a new state plus an optionally completed
request (the completion callback's argument), or one of the abnormal exits
of `parse_bytes`. -/
inductive StepOut where
  | ok (s : IncomingRequest) (finished : Option Req)
  | fail
  | exn
  | assertFail
deriving DecidableEq, Repr

/-- The `mode == RequestLine` branch for a completed line (http.hpp lines
163-178).  An empty line is ignored.  Otherwise the line is split at its
first two spaces.  NOTE (faithful to the source): line 171 repeats the test
`i1 == std::string::npos` instead of testing `i2`; since `i1` was already
found, that test never fires, so a missing second space is *not* rejected
here.  With `i2 == npos`, `substr(i1+1, npos-(i1+1))` clamps to the rest of
the line and `substr((npos+1) mod 2^64) = substr(0)` yields the whole line
(size_t wraparound). -/
def handleRequestLine (s : IncomingRequest) (line : List Char) : StepOut :=
  match line with
  | [] => .ok { s with line := [] } none
  | _ :: _ =>
    match findFrom line ' ' 0 with
    | none => .fail
    | some i1 =>
      let i2? := findFrom line ' ' (i1 + 1)
      let method := line.take i1
      let url :=
        match i2? with
        | some i2 => (line.drop (i1 + 1)).take (i2 - (i1 + 1))
        | none => line.drop (i1 + 1)
      let version :=
        match i2? with
        | some i2 => line.drop (i2 + 1)
        | none => line
      if version.take 7 ≠ "HTTP/1.".data then .fail
      else .ok { s with method, url, mode := .HeaderLine, line := [] } none

/-- The `mode == HeaderLine` branch for a completed line (http.hpp lines
179-227).  A blank line is the header/body boundary: fold every header
value, scan for `Content-Length`, move to `Body`, and complete immediately
when the expected count is zero.  A line starting with space/tab continues
the previous header (appended verbatim); otherwise the line splits at its
first colon. -/
def handleHeaderLine (s : IncomingRequest) (line : List Char) : StepOut :=
  match line with
  | [] =>
    let headers := s.headers.map fun nf => (nf.1, foldValue nf.2)
    match scanCL headers s.content_remains with
    | none => .exn
    | some cr =>
      if cr == 0 then
        .ok IncomingRequest.init (some ⟨s.method, s.url, headers, s.body⟩)
      else
        .ok { s with headers := headers, content_remains := cr, mode := .Body,
                     line := [] } none
  | c :: _ =>
    if c == ' ' || c == '\t' then
      match s.headers.getLast? with
      | none => .fail
      | some nf =>
        .ok { s with headers := s.headers.dropLast ++ [(nf.1, nf.2 ++ line)],
                     line := [] } none
    else
      match findFrom line ':' 0 with
      | none => .fail
      | some i =>
        .ok { s with headers := s.headers ++ [(line.take i, line.drop (i + 1))],
                     line := [] } none

/-- End-of-line test (http.hpp line 160):
`line.size() >= 2 && line[line.size()-2] == '\r' && line[line.size()-1] == '\n'`. -/
def endsCRLF (line : List Char) : Bool :=
  decide (2 ≤ line.length) && line.getLast? == some '\n'
    && line.dropLast.getLast? == some '\r'

/-- One character of `incoming_request::parse_bytes` (http.hpp lines 156-240).
In `RequestLine`/`HeaderLine` the char accumulates into `line`; a trailing
CRLF dispatches the (CRLF-stripped) line.  In `Body`, the source asserts
`content_remains != 0`, then appends the byte, decrements the counter, and
completes the request when the counter reaches zero. -/
def parseChar (s : IncomingRequest) (c : Char) : StepOut :=
  match s.mode with
  | .Body =>
    if s.content_remains == 0 then .assertFail
    else
      let s' := { s with body := s.body ++ [c],
                         content_remains := s.content_remains - 1 }
      if s'.content_remains == 0 then
        .ok IncomingRequest.init (some ⟨s'.method, s'.url, s'.headers, s'.body⟩)
      else .ok s' none
  | _ =>
    let line := s.line ++ [c]
    if endsCRLF line then
      let content := line.dropLast.dropLast
      if s.mode == .RequestLine then handleRequestLine s content
      else handleHeaderLine s content
    else .ok { s with line := line } none

/-- Overall outcome of a `parse_bytes` call, together with the list of
requests delivered to the completion callback during the call (in order).
`ok` models `return true`, `fail` models `return false`, `exn` an uncaught
exception, `assertFail` a firing `assert`. -/
inductive POut where
  | ok (s : IncomingRequest) (finished : List Req)
  | fail (finished : List Req)
  | exn (finished : List Req)
  | assertFail (finished : List Req)
deriving DecidableEq, Repr

/-- Prepend already-completed requests to an outcome's callback list. -/
def POut.addFinished (rs : List Req) : POut → POut
  | .ok s fs => .ok s (rs ++ fs)
  | .fail fs => .fail (rs ++ fs)
  | .exn fs => .exn (rs ++ fs)
  | .assertFail fs => .assertFail (rs ++ fs)

/-- `incoming_request::parse_bytes(begin, count, on_finish)` over a char
list: process chars left to right, collecting completed requests. -/
def parse_bytes (s : IncomingRequest) : List Char → POut
  | [] => .ok s []
  | c :: rest =>
    match parseChar s c with
    | .ok s' r? => (parse_bytes s' rest).addFinished r?.toList
    | .fail => .fail []
    | .exn => .exn []
    | .assertFail => .assertFail []

/-- The user-facing fields of `http::response` (http.hpp lines 79-92):
status code (an `int`), reason phrase, ordered header list, body. -/
structure Response where
  status_code : Int := 200
  status_message : String := "OK"
  headers : List (String × String) := []
  body : String := ""

/-- The wire bytes built by `response::~response` (http.hpp lines 585-592):
status line, user headers in order, a synthesized `Content-Length` from the
final body size, a blank line, then the body. -/
def response_message (r : Response) : String :=
  let m := "HTTP/1.1 " ++ toString r.status_code ++ " " ++ r.status_message ++ "\r\n"
  let m := r.headers.foldl (fun acc kv => acc ++ (kv.1 ++ ": " ++ kv.2 ++ "\r\n")) m
  let m := m ++ ("Content-Length: " ++ toString r.body.length ++ "\r\n")
  let m := m ++ "\r\n"
  m ++ r.body

/-- A queue slot (`http::message`, http.hpp lines 123-127): one-shot
readiness flag plus the serialized wire bytes.  The `next` link is
represented by slot order in the connection's queue list. -/
structure Msg where
  ready : Bool
  data : List Char
deriving DecidableEq, Repr

/-- `response::~response` (http.hpp lines 579-602) as observed at its queue
slot.  `weak_message.lock()` yields the slot while the owning connection's
queue still holds it (`some`); after teardown it yields `none` and the
destructor returns at once, writing nothing. -/
def responseDtor (r : Response) (slot : Option Msg) : Option Msg :=
  match slot with
  | none => none
  | some _ => some ⟨true, (response_message r).data⟩

/-- The tail-append walk that installs a fresh `message` slot when a request
finishes parsing (http.hpp lines 481-492): follow `next` pointers to the
end, then attach a new not-ready, empty slot.  `i` identifies the new slot
(the identity of the `shared_ptr<message>` object). -/
def appendMessage (i : Nat) : List (Nat × Msg) → List (Nat × Msg)
  | [] => [(i, ⟨false, []⟩)]
  | m :: rest => m :: appendMessage i rest

/-- State of one connection's outbound side for the two-pipelined-requests
scenario: `conn = some q` while the connection lives (its slot queue, head
first), `none` once torn down; `fin1`/`fin2` record whether each response
handle was already finalized (a destructor runs at most once); `out` is the
byte stream sent on the socket so far. -/
structure ConnState where
  conn : Option (List (Nat × Msg))
  fin1 : Bool
  fin2 : Bool
  out : List Char
deriving DecidableEq, Repr

/-- Events touching the outbound queue: finalization of either response
handle, a successful `send()` of `n` bytes from the head slot (http.hpp
lines 506-529), or connection teardown. -/
inductive Act where
  | finalize1
  | finalize2
  | send (n : Nat)
  | teardown
deriving DecidableEq, Repr

/-- Finalization writes through the handle's weak reference: if the slot
with identity `i` is still queued, store the serialized bytes and set it
ready (as in `response::~response`); otherwise nothing happens. -/
def writeSlot (i : Nat) (d : List Char) (q : List (Nat × Msg)) : List (Nat × Msg) :=
  q.map fun jm => if jm.1 = i then (jm.1, ⟨true, d⟩) else jm

/-- One event of the outbound-queue system.  `d1`/`d2` are the wire bytes the
two response handles serialize on finalization.  `send n` is enabled only
when the head slot exists, is ready, and `0 < n ≤` its remaining bytes
(the cases `server::listen` treats as a successful send); it emits the
sent prefix and dequeues the slot when its buffer empties. -/
def step (d1 d2 : List Char) (s : ConnState) : Act → Option ConnState
  | .finalize1 =>
    if s.fin1 then none
    else some { s with fin1 := true, conn := s.conn.map (writeSlot 1 d1) }
  | .finalize2 =>
    if s.fin2 then none
    else some { s with fin2 := true, conn := s.conn.map (writeSlot 2 d2) }
  | .send n =>
    match s.conn with
    | some ((i, m) :: rest) =>
      if m.ready = true ∧ 0 < n ∧ n ≤ m.data.length then
        let remain := m.data.drop n
        some { s with out := s.out ++ m.data.take n,
                      conn := some (if remain.isEmpty then rest
                                    else (i, ⟨m.ready, remain⟩) :: rest) }
      else none
    | _ => none
  | .teardown => some { s with conn := none }

/-- Run a sequence of queue events from a state. -/
def runQueue (d1 d2 : List Char) : ConnState → List Act → Option ConnState
  | s, [] => some s
  | s, a :: rest =>
    match step d1 d2 s a with
    | none => none
    | some s' => runQueue d1 d2 s' rest

/-- Initial state for two pipelined requests: two slots appended (by the
`message_ptr` walk) in request-parse-completion order, neither handle yet
finalized, nothing sent. -/
def initTwo : ConnState :=
  ⟨some (appendMessage 2 (appendMessage 1 [])), false, false, []⟩

end Http

namespace Http

/-! ## Wire-format serializer (spec §6) used to state round-trip claims -/

def crlf : List Char := ['\r', '\n']

/-- One header line `Name: value CRLF` of the wire format. -/
def serializeHeader (nf : List Char × List Char) : List Char :=
  nf.1 ++ ':' :: ' ' :: nf.2 ++ crlf

/-- A well-formed request per spec §6: request line
`METHOD SP URL SP version CRLF`, header lines, blank-line separator, body. -/
def serializeRequest (method url version : List Char)
    (headers : List (List Char × List Char)) (body : List Char) : List Char :=
  method ++ ' ' :: url ++ ' ' :: version ++ crlf
    ++ (headers.map serializeHeader).flatten ++ crlf ++ body

/-! ## Spec-side definitions (stated from the spec's words, for comparison) -/

/-- Space-or-tab, the whitespace folded by the header-folding pass. -/
def isWSc (c : Char) : Bool := c == ' ' || c == '\t'

mutual

/-- Spec-side folding, step 1 ("runs of space/tab are collapsed to a single
space"): every maximal run of space/tab becomes exactly one `' '`;
`skipRun` consumes the remainder of the current run. -/
def collapseRuns : List Char → List Char
  | [] => []
  | c :: rest => if isWSc c then ' ' :: skipRun rest else c :: collapseRuns rest

/-- Remainder-of-run consumer for `collapseRuns`. -/
def skipRun : List Char → List Char
  | [] => []
  | c :: rest => if isWSc c then skipRun rest else c :: collapseRuns rest

end

/-- Spec-side folding ("runs of space/tab are collapsed to a single space,
leading runs are dropped, and a single trailing space is trimmed"),
written directly from those words. -/
def foldSpec (v : List Char) : List Char :=
  let w := collapseRuns v
  let w := if w.head? = some ' ' then w.tail else w
  if w.getLast? = some ' ' then w.dropLast else w

/-- Spec-side ASCII lowercase map: only the letters `'A'`-`'Z'` are mapped
to lowercase (`+ 32`); every other byte is left alone. -/
def lowerSpec (c : Char) : Char :=
  if 'A' ≤ c ∧ c ≤ 'Z' then Char.ofNat (c.toNat + 32) else c

end Http

namespace Tweak

/-!
## JSON string escaping helpers of `tweak.cpp`

These operate on raw bytes, modelled as `Nat` values (a byte string is a
`List Nat` whose entries are `< 256`).
-/

/-- The escaping loop of `utf8_to_json` (tweak.cpp lines 341-347): backslash
(0x5c) and double quote (0x22) are prefixed with a backslash; every other
byte is copied verbatim. -/
def jsonEscape : List Nat → List Nat
  | [] => []
  | c :: rest =>
    if c == 0x5c || c == 0x22 then 0x5c :: c :: jsonEscape rest
    else c :: jsonEscape rest

/-- `utf8_to_json` (tweak.cpp lines 336-350): a double quote, the escaped
bytes, a closing double quote. -/
def utf8_to_json (data : List Nat) : List Nat :=
  0x22 :: (jsonEscape data ++ [0x22])

/-- One hex digit of `read_hex4` (tweak.cpp lines 260-264).  NOTE (faithful
to the source): the third branch tests `*c >= 'a' && *c <= 'F'` — an empty
range — instead of `'A'..'F'`, so uppercase hex digits are rejected as
invalid.  This latent slip is preserved here. -/
def hexVal (c : Nat) : Option Nat :=
  if 0x30 ≤ c ∧ c ≤ 0x39 then some (c - 0x30)
  else if 0x61 ≤ c ∧ c ≤ 0x66 then some (c - 0x61 + 10)
  else if 0x61 ≤ c ∧ c ≤ 0x46 then some (c - 0x41 + 10)
  else none

/-- One iteration of `read_hex4`: multiply the accumulator by 16, require a
char, require it to be a valid hex digit. -/
def hexStep (acc : Nat) : List Nat → Except String (Nat × List Nat)
  | [] => .error "Unicode escape includes end-of-string."
  | c :: rest =>
    match hexVal c with
    | some d => .ok (16 * acc + d, rest)
    | none => .error "Unicode escape contains invalid hex digit."

/-- `read_hex4` (tweak.cpp lines 256-269): four sequential hex digits. -/
def read_hex4 (cs : List Nat) : Except String (Nat × List Nat) :=
  match hexStep 0 cs with
  | .error e => .error e
  | .ok (v, cs) =>
    match hexStep v cs with
    | .error e => .error e
    | .ok (v, cs) =>
      match hexStep v cs with
      | .error e => .error e
      | .ok (v, cs) => hexStep v cs

/-- The UTF-8 byte emission for a decoded scalar (tweak.cpp lines 302-318).
NOTE (faithful to the source): the two-byte case emits
`0xC0 | (val >> 7)` where standard UTF-8 would use `val >> 6`; the final
`assert(0)` branch (unreachable, values never exceed 0x10ffff here) is
modelled as emitting nothing. -/
def encodeVal (val : Nat) : List Nat :=
  if val ≤ 0x7f then [val]
  else if val ≤ 0x7ff then [0xC0 ||| (val >>> 7), 0x80 ||| (val &&& 0x3f)]
  else if val ≤ 0xffff then
    [0xe0 ||| (val >>> 12), 0x80 ||| ((val >>> 6) &&& 0x3f), 0x80 ||| (val &&& 0x3f)]
  else if val ≤ 0x10ffff then
    [0xf0 ||| ((val >>> 18) &&& 0x7), 0x80 ||| ((val >>> 12) &&& 0x3f),
     0x80 ||| ((val >>> 6) &&& 0x3f), 0x80 ||| (val &&& 0x3f)]
  else []

/-- `hexStep` consumes exactly one byte on success. -/
theorem hexStep_length {acc v : Nat} {cs r : List Nat}
    (h : hexStep acc cs = .ok (v, r)) : r.length + 1 = cs.length := by
  match cs with
  | [] => simp [hexStep] at h
  | c :: rest =>
    simp only [hexStep] at h
    match hv : hexVal c with
    | some d => rw [hv] at h; simp at h; simp [← h.2]
    | none => rw [hv] at h; simp at h

/-- `read_hex4` consumes exactly four bytes on success. -/
theorem read_hex4_length {v : Nat} {cs r : List Nat}
    (h : read_hex4 cs = .ok (v, r)) : r.length + 4 = cs.length := by
  unfold read_hex4 at h
  match h1 : hexStep 0 cs with
  | .error e => rw [h1] at h; simp at h
  | .ok (v1, cs1) =>
    rw [h1] at h
    simp only [] at h
    match h2 : hexStep v1 cs1 with
    | .error e => rw [h2] at h; simp at h
    | .ok (v2, cs2) =>
      rw [h2] at h
      simp only [] at h
      match h3 : hexStep v2 cs2 with
      | .error e => rw [h3] at h; simp at h
      | .ok (v3, cs3) =>
        rw [h3] at h
        simp only [] at h
        have l1 := hexStep_length h1
        have l2 := hexStep_length h2
        have l3 := hexStep_length h3
        have l4 := hexStep_length h
        omega

/-- The decoding loop of `json_to_utf8` (tweak.cpp lines 274-325): copy
bytes until an unescaped double quote (which is left unconsumed), undoing
the escape sequences.  Mirrors the source exactly, including the surrogate
handling and the fall-through for an unknown escape (the backslash is
consumed and the following byte is reprocessed by the loop). -/
def json_loop (cs : List Nat) : Except String (List Nat × List Nat) :=
  match cs with
  | [] => .ok ([], [])
  | c :: rest =>
    if c == 0x22 then .ok ([], c :: rest)
    else if c == 0x5c then
      match rest with
      | [] => .error "End-of-string follows backslash."
      | e :: rest2 =>
        if e == 0x22 || e == 0x5c || e == 0x2f then
          match json_loop rest2 with
          | .error m => .error m
          | .ok (o, r) => .ok (e :: o, r)
        else if e == 0x62 then
          match json_loop rest2 with
          | .error m => .error m
          | .ok (o, r) => .ok (0x08 :: o, r)
        else if e == 0x66 then
          match json_loop rest2 with
          | .error m => .error m
          | .ok (o, r) => .ok (0x0c :: o, r)
        else if e == 0x6e then
          match json_loop rest2 with
          | .error m => .error m
          | .ok (o, r) => .ok (0x0a :: o, r)
        else if e == 0x72 then
          match json_loop rest2 with
          | .error m => .error m
          | .ok (o, r) => .ok (0x0d :: o, r)
        else if e == 0x74 then
          match json_loop rest2 with
          | .error m => .error m
          | .ok (o, r) => .ok (0x09 :: o, r)
        else if e == 0x75 then
          match h4 : read_hex4 rest2 with
          | .error m => .error m
          | .ok (val, rest3) =>
            if (val &&& 0xfc00) == 0xd800 then
              match hr3 : rest3 with
              | [] => .error "Missing backslash in second part of surrogate pair."
              | b :: rest4 =>
                if b != 0x5c then
                  .error "Missing backslash in second part of surrogate pair."
                else
                  match hr4 : rest4 with
                  | [] => .error "Missing 'u' in second part of surrogate pair."
                  | u :: rest5 =>
                    if u != 0x75 then
                      .error "Missing 'u' in second part of surrogate pair."
                    else
                      match h4b : read_hex4 rest5 with
                      | .error m => .error m
                      | .ok (val2, rest6) =>
                        if (val2 &&& 0xfc00) != 0xdc00 then
                          .error "Missing second half of surrogate pair."
                        else
                          let w := 0x01000 +
                            (((val &&& 0x3ff) <<< 10) ||| (val2 &&& 0x3ff))
                          match json_loop rest6 with
                          | .error m => .error m
                          | .ok (o, r) => .ok (encodeVal w ++ o, r)
            else
              match json_loop rest3 with
              | .error m => .error m
              | .ok (o, r) => .ok (encodeVal val ++ o, r)
        else json_loop (e :: rest2)
    else
      match json_loop rest with
      | .error m => .error m
      | .ok (o, r) => .ok (c :: o, r)
termination_by cs.length
decreasing_by
  all_goals try (simp only [List.length_cons] at *)
  all_goals try omega
  all_goals
    (have l1 := read_hex4_length h4
     simp only [List.length_cons] at l1
     try (have l2 := read_hex4_length h4b
          simp only [List.length_cons] at l2)
     omega)

/-- `json_to_utf8` (tweak.cpp lines 251-334): require an opening quote, run
the loop, require the closing quote, require no trailing bytes.  `.ok out`
models `return true` with `*_out = out`; `.error msg` models `return
false` with `*error = msg`. -/
def json_to_utf8 (data : List Nat) : Except String (List Nat) :=
  match data with
  | [] => .error "String doesn't start with quote."
  | c :: rest =>
    if c != 0x22 then .error "String doesn't start with quote."
    else
      match json_loop rest with
      | .error m => .error m
      | .ok (out, rest2) =>
        match rest2 with
        | [] => .error "String doesn't end with quote."
        | c2 :: rest3 =>
          if c2 != 0x22 then .error "String doesn't end with quote."
          else if !rest3.isEmpty then .error "Trailing characters after string."
          else .ok out

end Tweak

namespace Http

/-! ## Supporting lemmas -/

/-- The header `foldl` of `response_message` appends the concatenation of
the serialized header lines. -/
theorem foldl_headers (l : List (String × String)) (init : String) :
    l.foldl (fun acc kv => acc ++ (kv.1 ++ ": " ++ kv.2 ++ "\r\n")) init
      = init ++ (l.map fun kv => kv.1 ++ ": " ++ kv.2 ++ "\r\n").foldr (· ++ ·) "" := by
  induction l generalizing init with
  | nil => simp
  | cons kv t ih =>
    simp only [List.foldl_cons, List.map_cons, List.foldr_cons]
    rw [ih]
    simp [String.append_assoc]

end Http

namespace Http

/-! ## Claim theorems (statements follow CLAIMS.json) -/

/-- **C3.** Response finalization serializes exactly: status line
`"HTTP/1.1 " ++ code ++ " " ++ reason ++ CRLF`, each user header in
insertion order, a synthesized `Content-Length` computed only from the
final body size (the user header list appears verbatim and is not
consulted for it), a blank line, then the body; and the concrete 404
example produces exactly the expected bytes. -/
theorem response_serialization_exact (c : Int) (msg : String)
    (hs : List (String × String)) (b : String) :
    response_message ⟨c, msg, hs, b⟩
      = "HTTP/1.1 " ++ toString c ++ " " ++ msg ++ "\r\n"
        ++ (hs.map fun kv => kv.1 ++ ": " ++ kv.2 ++ "\r\n").foldr (· ++ ·) ""
        ++ ("Content-Length: " ++ toString b.length ++ "\r\n") ++ "\r\n" ++ b
    ∧ response_message ⟨404, "Not Found", [], "nope"⟩
      = "HTTP/1.1 404 Not Found\r\nContent-Length: 4\r\n\r\nnope" := by
  constructor
  · unfold response_message
    dsimp only
    rw [foldl_headers]
  · rfl

/-- **C5.** Finalizing a response handle whose connection is already gone is
a silent no-op: the destructor's `weak_message.lock()` yields nothing and
no slot is written (`responseDtor r none = none`), and in the queue system
a finalize event on a torn-down connection succeeds while changing neither
the (absent) queue nor the output stream. -/
theorem finalize_after_teardown (r : Response) (d1 d2 : List Char)
    (s : ConnState) (hconn : s.conn = none) (hfin : s.fin1 = false) :
    responseDtor r none = none
    ∧ step d1 d2 s .finalize1 = some { s with fin1 := true }
    ∧ ({ s with fin1 := true } : ConnState).conn = none
    ∧ ({ s with fin1 := true } : ConnState).out = s.out := by
  obtain ⟨conn, f1, f2, out⟩ := s
  cases hconn
  cases hfin
  exact ⟨rfl, rfl, rfl, rfl⟩

/-- Witness for C5 at a concrete handle and state. -/
theorem finalize_after_teardown_witness :
    responseDtor ⟨404, "Not Found", [], "nope"⟩ none = none
    ∧ step ['A'] ['B'] ⟨none, false, false, ['x']⟩ .finalize1
        = some ⟨none, true, false, ['x']⟩ := by
  have h := finalize_after_teardown ⟨404, "Not Found", [], "nope"⟩ ['A'] ['B']
    ⟨none, false, false, ['x']⟩ rfl rfl
  exact ⟨h.1, h.2.1⟩

/-- **C2** (code bug evaluation).  A request line whose text begins with
`"HTTP/1."` and has no second space is *accepted* — `parse_bytes` returns
true and the completion callback fires — because http.hpp line 171
re-checks `i1` instead of `i2` and `npos+1` wraps to 0, making the version
check read the whole line.  Request lines without a second space that do
not begin with `"HTTP/1."` are rejected through the version check, and a
line with no space at all is rejected by the first-space check. -/
theorem request_line_missing_second_space_eval :
    parse_bytes .init "HTTP/1.1 x\r\n\r\n".data
      = .ok .init [⟨"HTTP/1.1".data, "x".data, [], []⟩]
    ∧ parse_bytes .init "GET /\r\n".data = .fail []
    ∧ parse_bytes .init "GET\r\n".data = .fail [] := by
  exact ⟨by decide, by decide, by decide⟩

/-- **C1** (counterexample).  On a request whose `Content-Length` value is
the non-numeric `"abc"`, `parse_bytes` does **not** behave as if the header
were absent: `std::stoul` throws and the exception propagates (outcome
`.exn`, no callback), whereas with the header absent the same request
completes with outcome `.ok` and one delivered request; the two outcomes
differ. -/
theorem malformed_content_length_cex :
    parse_bytes .init "GET / HTTP/1.1\r\nContent-Length: abc\r\n\r\n".data
      = .exn []
    ∧ parse_bytes .init "GET / HTTP/1.1\r\n\r\n".data
      = .ok .init [⟨"GET".data, "/".data, [], []⟩]
    ∧ (POut.exn [] : POut) ≠ .ok .init [⟨"GET".data, "/".data, [], []⟩] := by
  exact ⟨by decide, by decide, by decide⟩

end Http

namespace Tweak

/-- The decode loop inverts the escape loop: on escaped bytes followed by
the closing quote it reproduces the original bytes and stops at the
quote. -/
theorem json_loop_escape (s : List Nat) :
    json_loop (jsonEscape s ++ [0x22]) = .ok (s, [0x22]) := by
  induction s with
  | nil => simp [jsonEscape, json_loop]
  | cons b t ih =>
    by_cases hb : b = 0x5c ∨ b = 0x22
    · have h1 : jsonEscape (b :: t) = 0x5c :: b :: jsonEscape t := by
        rcases hb with h | h <;> simp [jsonEscape, h]
      have hbe : (b == 0x22 || b == 0x5c || b == 0x2f) = true := by
        rcases hb with h | h <;> simp [h]
      rw [h1, List.cons_append, List.cons_append, json_loop.eq_def]
      simp [hbe, ih]
    · push_neg at hb
      have h1 : jsonEscape (b :: t) = b :: jsonEscape t := by
        simp [jsonEscape, hb.1, hb.2]
      rw [h1, List.cons_append, json_loop.eq_def]
      simp [hb.1, hb.2, ih]

/-- **C10.** For every byte string `s`, decoding the encoding succeeds and
returns exactly `s`: `utf8_to_json` wraps `s` in quotes escaping only
backslash and double quote, and `json_to_utf8` inverts it. -/
theorem utf8_json_round_trip (s : List Nat) (h : ∀ b ∈ s, b < 256) :
    json_to_utf8 (utf8_to_json s) = .ok s := by
  simp [utf8_to_json, json_to_utf8, json_loop_escape]

/-- Witness for C10 on a concrete byte string exercising both escapes. -/
theorem utf8_json_round_trip_witness :
    json_to_utf8 (utf8_to_json [0x61, 0x22, 0x5c, 0x0a]) = .ok [0x61, 0x22, 0x5c, 0x0a] :=
  utf8_json_round_trip [0x61, 0x22, 0x5c, 0x0a] (by decide)

end Tweak

namespace Http

/-- `n ||| 0x20 = n + 32` on the ASCII uppercase range. -/
theorem lor_32_eq_add (n : Nat) (h1 : 65 ≤ n) (h2 : n ≤ 90) :
    n ||| 32 = n + 32 := by
  interval_cases n <;> rfl

/-- The source's `c |= 0x20` fold agrees with the spec-side "map `'A'`-`'Z'`
to lowercase" function. -/
theorem lowerByte_eq_lowerSpec (c : Char) : lowerByte c = lowerSpec c := by
  unfold lowerByte lowerSpec
  split
  · rename_i h
    have h1 : 65 ≤ c.toNat := h.1
    have h2 : c.toNat ≤ 90 := h.2
    rw [lor_32_eq_add c.toNat h1 h2]
  · rfl

/-- Unfolding `case_insensitive_equals` one position. -/
theorem ciEq_cons (x y : Char) (xs ys : List Char) :
    case_insensitive_equals (x :: xs) (y :: ys)
      = ((lowerByte x == lowerByte y) && case_insensitive_equals xs ys) := by
  unfold case_insensitive_equals
  by_cases h : xs.length = ys.length
  · simp [h]
  · simp [h]

/-- `case_insensitive_equals` decides equality of the lowercase images. -/
theorem ciEq_true_iff (a b : List Char) :
    case_insensitive_equals a b = true ↔ a.map lowerByte = b.map lowerByte := by
  induction a generalizing b with
  | nil => cases b <;> simp [case_insensitive_equals]
  | cons x xs ih =>
    cases b with
    | nil => simp [case_insensitive_equals]
    | cons y ys => simp [ciEq_cons, ih ys]

/-- **C8.** Header-name comparison is an ASCII-only case-insensitive fold:
`case_insensitive_equals` holds exactly when the two names agree after
mapping only `'A'`-`'Z'` to lowercase (all other bytes compared exactly);
consequently the boundary Content-Length scan treats a header named
`content-length` exactly like one named `Content-Length`. -/
theorem content_length_case_insensitive :
    (∀ a b : List Char,
      case_insensitive_equals a b = true ↔ a.map lowerSpec = b.map lowerSpec)
    ∧ (∀ (v : List Char) (cur : Nat),
        scanCL [("content-length".data, v)] cur
          = scanCL [("Content-Length".data, v)] cur) := by
  constructor
  · intro a b
    have hfun : lowerByte = lowerSpec := funext lowerByte_eq_lowerSpec
    rw [ciEq_true_iff, hfun]
  · intro v cur
    have h1 : case_insensitive_equals "content-length".data "Content-Length".data
        = true := by decide
    have h2 : case_insensitive_equals "Content-Length".data "Content-Length".data
        = true := by decide
    simp [scanCL, h1, h2]

/-- The imperative folding loop, started from the three kinds of
accumulator states (empty; ending in a space; nonempty not ending in a
space), produces `skipRun` / `collapseRuns` of the remaining input. -/
theorem foldCore_spec (v : List Char) :
    (List.foldl foldStep [] v = skipRun v)
    ∧ (∀ acc : List Char, acc.getLast? = some ' ' →
        List.foldl foldStep acc v = acc ++ skipRun v)
    ∧ (∀ acc : List Char, acc ≠ [] → acc.getLast? ≠ some ' ' →
        List.foldl foldStep acc v = acc ++ collapseRuns v) := by
  induction v with
  | nil =>
    exact ⟨rfl, fun acc _ => by simp [skipRun], fun acc _ _ => by simp [collapseRuns]⟩
  | cons c rest ih =>
    obtain ⟨ihE, ihS, ihN⟩ := ih
    by_cases hw : (c == ' ' || c == '\t') = true
    · refine ⟨?_, ?_, ?_⟩
      · have hstep : foldStep [] c = [] := by simp [foldStep, hw]
        rw [List.foldl_cons, hstep, ihE]
        simp [skipRun, isWSc, hw]
      · intro acc hacc
        have hstep : foldStep acc c = acc := by
          simp [foldStep, hw, hacc]
        rw [List.foldl_cons, hstep, ihS acc hacc]
        simp [skipRun, isWSc, hw]
      · intro acc hne hl
        have hstep : foldStep acc c = acc ++ [' '] := by
          simp [foldStep, hw]
          exact ⟨hne, hl⟩
        rw [List.foldl_cons, hstep, ihS _ (List.getLast?_concat _)]
        simp [collapseRuns, isWSc, hw]
    · have hmk : ∀ acc : List Char, foldStep acc c = acc ++ [c] := fun acc => by
        simp [foldStep, hw]
      have hc : c ≠ ' ' := by
        intro e; subst e; simp at hw
      have hl' : ∀ acc : List Char, (acc ++ [c]).getLast? ≠ some ' ' := by
        intro acc
        rw [List.getLast?_concat]
        simp [hc]
      refine ⟨?_, ?_, ?_⟩
      · rw [List.foldl_cons, hmk, ihN ([] ++ [c]) (by simp) (hl' [])]
        simp [skipRun, isWSc, hw]
      · intro acc hacc
        rw [List.foldl_cons, hmk, ihN _ (by simp) (hl' acc)]
        simp [skipRun, isWSc, hw]
      · intro acc hne hl
        rw [List.foldl_cons, hmk, ihN _ (by simp) (hl' acc)]
        simp [collapseRuns, isWSc, hw]

/-- Dropping the leading space from the collapsed form is `skipRun`. -/
theorem dropLead_collapse (v : List Char) :
    (if (collapseRuns v).head? = some ' ' then (collapseRuns v).tail
     else collapseRuns v) = skipRun v := by
  cases v with
  | nil => simp [collapseRuns, skipRun]
  | cons c rest =>
    by_cases hw : isWSc c = true
    · simp [collapseRuns, skipRun, hw]
    · have hc : c ≠ ' ' := by
        intro e; subst e; simp [isWSc] at hw
      simp [collapseRuns, skipRun, hw, hc]

/-- The source's header-value folding equals the spec-side folding. -/
theorem foldValue_eq_foldSpec (v : List Char) : foldValue v = foldSpec v := by
  unfold foldValue foldSpec
  dsimp only
  rw [(foldCore_spec v).1, dropLead_collapse]
  by_cases h : (skipRun v).getLast? = some ' '
  · have hne : skipRun v ≠ [] := by
      intro e; rw [e] at h; simp at h
    simp [h, hne]
  · simp [h]

/-- **C7.** At the header/body boundary every header value is folded: runs
of space/tab collapse to a single space, a leading run is dropped, and a
single trailing space is trimmed (the code's folding equals the spec-side
`foldSpec` stating exactly that); consequently `X-Foo: a`, continuation
`" \tb"`, blank line yields exactly one header `X-Foo` with value
`"a b"`. -/
theorem header_value_folding :
    (∀ v : List Char, foldValue v = foldSpec v)
    ∧ parse_bytes .init "GET / HTTP/1.1\r\nX-Foo: a\r\n \tb\r\n\r\n".data
        = .ok .init [⟨"GET".data, "/".data, [("X-Foo".data, "a b".data)], []⟩] :=
  ⟨foldValue_eq_foldSpec, by decide⟩

/-- The parser-state invariant behind the `assert(content_remains != 0)` at
the top of the `Body` branch: in `Body` mode the remaining-body counter is
nonzero. -/
def bodyInv (s : IncomingRequest) : Prop :=
  s.mode = .Body → s.content_remains ≠ 0

/-- Every `.ok` result of the request-line handler preserves the invariant
(its states are never in `Body` mode). -/
theorem handleRequestLine_ok_inv {s s' : IncomingRequest} {l : List Char}
    {r : Option Req} (hs : s.mode ≠ .Body)
    (h : handleRequestLine s l = .ok s' r) : bodyInv s' := by
  unfold handleRequestLine at h
  match l with
  | [] =>
    simp only [StepOut.ok.injEq] at h
    cases h.1
    exact fun hB => absurd hB hs
  | c :: rest =>
    simp only [] at h
    match hf : findFrom (c :: rest) ' ' 0 with
    | none => rw [hf] at h; exact absurd h (by simp)
    | some i1 =>
      rw [hf] at h
      simp only [] at h
      split at h
      · exact absurd h (by simp)
      · simp only [StepOut.ok.injEq] at h
        cases h.1
        intro hB
        exact absurd hB (by simp)

/-- Every `.ok` result of the header-line handler satisfies the invariant. -/
theorem handleHeaderLine_ok_inv {s s' : IncomingRequest} {l : List Char}
    {r : Option Req} (hs : s.mode ≠ .Body)
    (h : handleHeaderLine s l = .ok s' r) : bodyInv s' := by
  unfold handleHeaderLine at h
  match l with
  | [] =>
    simp only [] at h
    match hscan : scanCL (s.headers.map fun nf => (nf.1, foldValue nf.2))
        s.content_remains with
    | none => rw [hscan] at h; exact absurd h (by simp)
    | some cr =>
      rw [hscan] at h
      simp only [] at h
      split at h
      · simp only [StepOut.ok.injEq] at h
        cases h.1
        intro hB
        simp [IncomingRequest.init] at hB
      · rename_i hcr
        simp only [StepOut.ok.injEq] at h
        cases h.1
        intro _
        simpa using hcr
  | c :: rest =>
    simp only [] at h
    split at h
    · match hlast : s.headers.getLast? with
      | none => rw [hlast] at h; exact absurd h (by simp)
      | some nf =>
        rw [hlast] at h
        simp only [StepOut.ok.injEq] at h
        cases h.1
        exact fun hB => absurd hB hs
    · match hf : findFrom (c :: rest) ':' 0 with
      | none => rw [hf] at h; exact absurd h (by simp)
      | some i =>
        rw [hf] at h
        simp only [StepOut.ok.injEq] at h
        cases h.1
        exact fun hB => absurd hB hs

/-- One parser step preserves the invariant. -/
theorem parseChar_ok_inv {s s' : IncomingRequest} {c : Char} {r : Option Req}
    (hs : bodyInv s) (h : parseChar s c = .ok s' r) : bodyInv s' := by
  unfold parseChar at h
  match hm : s.mode with
  | .Body =>
    rw [hm] at h
    simp only [] at h
    split at h
    · exact absurd h (by simp)
    · split at h
      · simp only [StepOut.ok.injEq] at h
        cases h.1
        intro hB
        simp [IncomingRequest.init] at hB
      · rename_i hcr
        simp only [StepOut.ok.injEq] at h
        cases h.1
        intro _
        simpa using hcr
  | .RequestLine =>
    rw [hm] at h
    simp only [] at h
    split at h
    · rw [if_pos (show (Mode.RequestLine == Mode.RequestLine) = true by decide)] at h
      exact handleRequestLine_ok_inv (by rw [hm]; simp) h
    · simp only [StepOut.ok.injEq] at h
      cases h.1
      intro hB
      simp at hB
  | .HeaderLine =>
    rw [hm] at h
    simp only [] at h
    split at h
    · rw [if_neg (show ¬(Mode.HeaderLine == Mode.RequestLine) = true by decide)] at h
      exact handleHeaderLine_ok_inv (by rw [hm]; simp) h
    · simp only [StepOut.ok.injEq] at h
      cases h.1
      intro hB
      simp at hB

/-- The request-line handler never returns the assertion-failure outcome. -/
theorem handleRequestLine_ne_assert (s : IncomingRequest) (l : List Char) :
    handleRequestLine s l ≠ .assertFail := by
  unfold handleRequestLine
  match l with
  | [] => simp
  | c :: r =>
    simp only []
    match findFrom (c :: r) ' ' 0 with
    | none => simp
    | some i1 => simp only []; split <;> simp

/-- The header-line handler never returns the assertion-failure outcome. -/
theorem handleHeaderLine_ne_assert (s : IncomingRequest) (l : List Char) :
    handleHeaderLine s l ≠ .assertFail := by
  unfold handleHeaderLine
  match l with
  | [] =>
    simp only []
    cases hscan : scanCL (s.headers.map fun nf => (nf.1, foldValue nf.2))
        s.content_remains with
    | none => simp
    | some cr => simp only []; split <;> simp
  | c :: r =>
    simp only []
    split
    · cases hlast : s.headers.getLast? with
      | none => simp
      | some nf => simp
    · cases hf : findFrom (c :: r) ':' 0 with
      | none => simp
      | some i => simp

/-- Under the invariant a parser step never trips the `Body` assertion. -/
theorem parseChar_no_assert {s : IncomingRequest} {c : Char} (hs : bodyInv s) :
    parseChar s c ≠ .assertFail := by
  unfold parseChar
  match hm : s.mode with
  | .Body =>
    simp only []
    rw [if_neg (by simpa using hs hm)]
    split <;> simp
  | .RequestLine =>
    simp only []
    split
    · rw [if_pos (show (Mode.RequestLine == Mode.RequestLine) = true by decide)]
      exact handleRequestLine_ne_assert _ _
    · simp
  | .HeaderLine =>
    simp only []
    split
    · rw [if_neg (show ¬(Mode.HeaderLine == Mode.RequestLine) = true by decide)]
      exact handleHeaderLine_ne_assert _ _
    · simp

/-- `parse_bytes` preserves the invariant across an `.ok` call. -/
theorem parse_bytes_ok_inv {s s' : IncomingRequest} {cs : List Char}
    {fs : List Req} (hs : bodyInv s) (h : parse_bytes s cs = .ok s' fs) :
    bodyInv s' := by
  induction cs generalizing s fs with
  | nil =>
    simp [parse_bytes] at h
    rw [← h.1]
    exact hs
  | cons c rest ih =>
    simp only [parse_bytes] at h
    match hc : parseChar s c with
    | .ok s1 r? =>
      rw [hc] at h
      simp only [] at h
      have hinv1 := parseChar_ok_inv hs hc
      match hp : parse_bytes s1 rest with
      | .ok s2 fs2 =>
        rw [hp] at h
        simp only [POut.addFinished, POut.ok.injEq] at h
        cases h.1
        exact ih hinv1 hp
      | .fail fs2 => rw [hp] at h; exact absurd h (by simp [POut.addFinished])
      | .exn fs2 => rw [hp] at h; exact absurd h (by simp [POut.addFinished])
      | .assertFail fs2 => rw [hp] at h; exact absurd h (by simp [POut.addFinished])
    | .fail => rw [hc] at h; exact absurd h (by simp)
    | .exn => rw [hc] at h; exact absurd h (by simp)
    | .assertFail => rw [hc] at h; exact absurd h (by simp)

/-- Under the invariant `parse_bytes` never ends in the assertion failure. -/
theorem parse_bytes_no_assert {s : IncomingRequest} (hs : bodyInv s)
    (cs : List Char) (fs : List Req) : parse_bytes s cs ≠ .assertFail fs := by
  induction cs generalizing s fs with
  | nil => simp [parse_bytes]
  | cons c rest ih =>
    simp only [parse_bytes]
    match hc : parseChar s c with
    | .ok s1 r? =>
      have hinv1 := parseChar_ok_inv hs hc
      match hp : parse_bytes s1 rest with
      | .ok s2 fs2 => simp [POut.addFinished, hp]
      | .fail fs2 => simp [POut.addFinished, hp]
      | .exn fs2 => simp [POut.addFinished, hp]
      | .assertFail fs2 => exact absurd hp (ih hinv1 fs2)
    | .fail => simp
    | .exn => simp
    | .assertFail => exact absurd hc (parseChar_no_assert hs)

/-- Parser states reachable from a fresh `incoming_request` through
successful (`true`-returning) `parse_bytes` calls; a failing call makes the
server close the connection and discard the state. -/
inductive Reachable : IncomingRequest → Prop
  | base : Reachable IncomingRequest.init
  | step {s s' : IncomingRequest} {cs : List Char} {fs : List Req} :
      Reachable s → parse_bytes s cs = .ok s' fs → Reachable s'

/-- Reachable states satisfy the invariant. -/
theorem reachable_inv {s : IncomingRequest} (h : Reachable s) : bodyInv s := by
  induction h with
  | base => intro hB; simp [IncomingRequest.init] at hB
  | step hr hp ih => exact parse_bytes_ok_inv ih hp

/-- **C9.** On every reachable parser state, `Body` mode implies a strictly
positive remaining-body counter, and no `parse_bytes` call from such a
state can trip the `assert(content_remains != 0)` at the top of the Body
branch. -/
theorem body_mode_counter_positive {s : IncomingRequest} (h : Reachable s) :
    (s.mode = .Body → 0 < s.content_remains)
    ∧ ∀ (cs : List Char) (fs : List Req), parse_bytes s cs ≠ .assertFail fs := by
  have hi := reachable_inv h
  exact ⟨fun hm => Nat.pos_of_ne_zero (hi hm),
         fun cs fs => parse_bytes_no_assert hi cs fs⟩

/-- Witness for C9: the initial state is reachable, and a concrete call
(headers plus a three-byte body fed in full) does not assert-fail. -/
theorem body_mode_counter_positive_witness :
    parse_bytes IncomingRequest.init
      "GET / HTTP/1.1\r\nContent-Length: 3\r\n\r\nabc".data ≠ .assertFail [] :=
  (body_mode_counter_positive Reachable.base).2 _ _

/-- Prepending no finished requests changes nothing. -/
theorem addFinished_nil (o : POut) : o.addFinished [] = o := by
  cases o <;> simp [POut.addFinished]

/-- A line extended by a non-newline character never ends in CRLF. -/
theorem endsCRLF_concat_ne (l : List Char) (c : Char) (hc : c ≠ '\n') :
    endsCRLF (l ++ [c]) = false := by
  unfold endsCRLF
  rw [List.getLast?_concat]
  simp [hc]

/-- A line ending in `'\r'` then `'\n'` ends in CRLF. -/
theorem endsCRLF_crlf (l : List Char) :
    endsCRLF ((l ++ ['\r']) ++ ['\n']) = true := by
  unfold endsCRLF
  rw [List.getLast?_concat, List.dropLast_concat, List.getLast?_concat]
  simp [List.length_append]

/-- In a line-reading mode, a character that does not complete a CRLF is
only accumulated. -/
theorem parseChar_accum (s : IncomingRequest) (c : Char) (hm : s.mode ≠ .Body)
    (he : endsCRLF (s.line ++ [c]) = false) :
    parseChar s c = .ok { s with line := s.line ++ [c] } none := by
  obtain ⟨m, u, hs, b, mo, cr, li⟩ := s
  unfold parseChar
  match mo with
  | .Body => exact absurd rfl hm
  | .RequestLine => simp only []; rw [he]; exact if_neg (by simp)
  | .HeaderLine => simp only []; rw [he]; exact if_neg (by simp)

/-- The request-line handler ignores the stored line buffer. -/
theorem handleRequestLine_line_irrel (s : IncomingRequest) (x l : List Char) :
    handleRequestLine { s with line := x } l = handleRequestLine s l := rfl

/-- The header-line handler ignores the stored line buffer. -/
theorem handleHeaderLine_line_irrel (s : IncomingRequest) (x l : List Char) :
    handleHeaderLine { s with line := x } l = handleHeaderLine s l := rfl

/-- The `'\n'` that completes a CRLF dispatches the accumulated line to the
mode's line handler. -/
theorem parseChar_newline (s : IncomingRequest) (hm : s.mode ≠ .Body) :
    parseChar { s with line := s.line ++ ['\r'] } '\n'
      = (if s.mode = .RequestLine then handleRequestLine s s.line
         else handleHeaderLine s s.line) := by
  obtain ⟨m, u, hs, b, mo, cr, li⟩ := s
  unfold parseChar
  match mo with
  | .Body => exact absurd rfl hm
  | .RequestLine =>
    simp only []
    rw [endsCRLF_crlf]
    simp [List.dropLast_concat]
    try exact handleRequestLine_line_irrel ⟨m, u, hs, b, .RequestLine, cr, li⟩ li li
  | .HeaderLine =>
    simp only []
    rw [endsCRLF_crlf]
    simp [List.dropLast_concat]
    try exact handleHeaderLine_line_irrel ⟨m, u, hs, b, .HeaderLine, cr, li⟩ li li

/-- Reading characters that contain no `'\n'` in a line-reading mode only
accumulates them into the line buffer. -/
theorem parse_accum (str : List Char) : ∀ (rest : List Char) (s : IncomingRequest),
    s.mode ≠ .Body → '\n' ∉ str →
    parse_bytes s (str ++ rest) = parse_bytes { s with line := s.line ++ str } rest := by
  induction str with
  | nil =>
    intro rest s _ _
    simp only [List.nil_append, List.append_nil]
  | cons c cs ih =>
    intro rest s hm hn
    obtain ⟨m, u, hs, b, mo, cr, li⟩ := s
    have hcn : c ≠ '\n' := fun e => hn (by simp [e])
    have hcs : '\n' ∉ cs := fun e => hn (by simp [e])
    rw [List.cons_append]
    simp only [parse_bytes]
    rw [parseChar_accum ⟨m, u, hs, b, mo, cr, li⟩ c hm (endsCRLF_concat_ne _ _ hcn)]
    simp only [Option.toList]
    rw [ih rest ⟨m, u, hs, b, mo, cr, li ++ [c]⟩ hm hcs]
    rw [show (li ++ [c]) ++ cs = li ++ (c :: cs) by simp]
    exact addFinished_nil _

/-- A full line (no `'\n'` inside) followed by CRLF is processed by the
line handler of the current mode, and parsing continues from its result. -/
theorem parse_line (s : IncomingRequest) (str rest : List Char)
    (hm : s.mode ≠ .Body) (hline : s.line = []) (hn : '\n' ∉ str) :
    parse_bytes s (str ++ crlf ++ rest)
      = match (if s.mode = .RequestLine then handleRequestLine s str
               else handleHeaderLine s str) with
        | .ok s' r? => (parse_bytes s' rest).addFinished r?.toList
        | .fail => .fail []
        | .exn => .exn []
        | .assertFail => .assertFail [] := by
  obtain ⟨m, u, hs, b, mo, cr, li⟩ := s
  cases hline
  rw [List.append_assoc, parse_accum str (crlf ++ rest) ⟨m, u, hs, b, mo, cr, []⟩ hm hn]
  show parse_bytes ⟨m, u, hs, b, mo, cr, [] ++ str⟩ ('\r' :: '\n' :: rest) = _
  rw [List.nil_append]
  simp only [parse_bytes]
  rw [parseChar_accum ⟨m, u, hs, b, mo, cr, str⟩ '\r' hm
      (endsCRLF_concat_ne _ _ (by decide))]
  simp only [Option.toList]
  rw [addFinished_nil]
  have h2 := parseChar_newline ⟨m, u, hs, b, mo, cr, str⟩ hm
  simp only [] at h2
  rw [h2]
  have hir : (if mo = .RequestLine then handleRequestLine ⟨m, u, hs, b, mo, cr, str⟩ str
              else handleHeaderLine ⟨m, u, hs, b, mo, cr, str⟩ str)
      = (if mo = .RequestLine then handleRequestLine ⟨m, u, hs, b, mo, cr, []⟩ str
         else handleHeaderLine ⟨m, u, hs, b, mo, cr, []⟩ str) := rfl
  rw [hir]

/-- `findIdx?` locates the first `ch` when the prefix avoids it. -/
theorem findIdx?_concat (ch : Char) :
    ∀ (m r : List Char) (i : Nat), ch ∉ m →
    List.findIdx? (fun x => x == ch) (m ++ ch :: r) i = some (i + m.length) := by
  intro m
  induction m with
  | nil => intro r i _; simp [List.findIdx?_cons]
  | cons x xs ih =>
    intro r i hm
    rw [List.cons_append, List.findIdx?_cons]
    have hx : (x == ch) = false := by
      simp only [beq_eq_false_iff_ne, ne_eq]
      intro e; exact hm (by simp [e])
    rw [hx]
    simp only [Bool.false_eq_true, if_false]
    rw [ih r (i + 1) (fun hmem => hm (List.mem_cons_of_mem _ hmem))]
    congr 1
    simp only [List.length_cons]
    omega

/-- `std::string::find` from position 0 on `m ++ ch :: r` with `ch ∉ m`. -/
theorem findFrom_zero (m r : List Char) (ch : Char) (h : ch ∉ m) :
    findFrom (m ++ ch :: r) ch 0 = some m.length := by
  unfold findFrom
  rw [List.drop_zero, findIdx?_concat ch m r 0 h]
  simp

/-- `std::string::find` from a position at the end of a known prefix. -/
theorem findFrom_pre (pre m r : List Char) (ch : Char) (h : ch ∉ m) :
    findFrom (pre ++ (m ++ ch :: r)) ch pre.length
      = some (pre.length + m.length) := by
  unfold findFrom
  rw [List.drop_left, findIdx?_concat ch m r 0 h]
  simp

/-- Processing a well-formed request line `METHOD SP URL SP version` (no
space in method or url, version beginning `HTTP/1.`) stores method and url
and moves to `HeaderLine`. -/
theorem handleRequestLine_wf (s : IncomingRequest) (method url version : List Char)
    (hm_sp : ' ' ∉ method) (hu_sp : ' ' ∉ url)
    (hv : version.take 7 = "HTTP/1.".data) :
    handleRequestLine s (method ++ ' ' :: url ++ ' ' :: version)
      = .ok { s with method := method, url := url, mode := .HeaderLine,
                     line := [] } none := by
  have hshape : method ++ ' ' :: (url ++ ' ' :: version)
      = method ++ ' ' :: url ++ ' ' :: version := by simp
  have hi1 : findFrom (method ++ ' ' :: url ++ ' ' :: version) ' ' 0
      = some method.length := by
    rw [← hshape]
    exact findFrom_zero method (url ++ ' ' :: version) ' ' hm_sp
  have hre : method ++ ' ' :: url ++ ' ' :: version
      = (method ++ [' ']) ++ (url ++ ' ' :: version) := by simp
  have hlen1 : (method ++ [' ']).length = method.length + 1 := by simp
  have hi2 : findFrom (method ++ ' ' :: url ++ ' ' :: version) ' ' (method.length + 1)
      = some (method.length + 1 + url.length) := by
    rw [hre, ← hlen1]
    exact findFrom_pre (method ++ [' ']) url version ' ' hu_sp
  have htake : (method ++ ' ' :: url ++ ' ' :: version).take method.length = method := by
    simpa using List.take_left method (' ' :: url ++ ' ' :: version)
  have hdrop1 : (method ++ ' ' :: url ++ ' ' :: version).drop (method.length + 1)
      = url ++ ' ' :: version := by
    rw [hre, ← hlen1, List.drop_left]
  have hurl : (url ++ ' ' :: version).take (method.length + 1 + url.length
      - (method.length + 1)) = url := by
    have harith : method.length + 1 + url.length - (method.length + 1) = url.length := by
      omega
    rw [harith]
    simpa using List.take_left url (' ' :: version)
  have hver : (method ++ ' ' :: url ++ ' ' :: version).drop
      (method.length + 1 + url.length + 1) = version := by
    have hre2 : method ++ ' ' :: url ++ ' ' :: version
        = ((method ++ [' ']) ++ (url ++ [' '])) ++ version := by simp
    have hlen2 : ((method ++ [' ']) ++ (url ++ [' '])).length
        = method.length + 1 + url.length + 1 := by simp; omega
    rw [hre2, ← hlen2, List.drop_left]
  obtain ⟨c0, t0, hct⟩ : ∃ c0 t0,
      method ++ ' ' :: url ++ ' ' :: version = c0 :: t0 := by
    cases method with
    | nil => exact ⟨_, _, rfl⟩
    | cons a as => exact ⟨_, _, rfl⟩
  rw [hct] at hi1 hi2 htake hdrop1 hver ⊢
  unfold handleRequestLine
  simp only []
  rw [hi1]
  simp only []
  rw [hi2]
  simp only []
  rw [htake, hdrop1, hurl, hver, hv]
  rw [if_neg (by simp)]

/-- Processing a well-formed header line `Name: value` (no colon in the
name, first char not space/tab) appends the raw pair; the value keeps the
space that followed the colon until boundary folding. -/
theorem handleHeaderLine_header (s : IncomingRequest) (n v : List Char)
    (hcolon : ':' ∉ n) (hh : ∀ c, n.head? = some c → c ≠ ' ' ∧ c ≠ '	') :
    handleHeaderLine s (n ++ ':' :: ' ' :: v)
      = .ok { s with headers := s.headers ++ [(n, ' ' :: v)], line := [] } none := by
  have hfind : findFrom (n ++ ':' :: ' ' :: v) ':' 0 = some n.length :=
    findFrom_zero n (' ' :: v) ':' hcolon
  have htake : (n ++ ':' :: ' ' :: v).take n.length = n := by
    simpa using List.take_left n (':' :: ' ' :: v)
  have hdrop : (n ++ ':' :: ' ' :: v).drop (n.length + 1) = ' ' :: v := by
    have hre : n ++ ':' :: ' ' :: v = (n ++ [':']) ++ (' ' :: v) := by simp
    have hlen : (n ++ [':']).length = n.length + 1 := by simp
    rw [hre, ← hlen, List.drop_left]
  obtain ⟨c0, t0, hct, hws⟩ : ∃ c0 t0, n ++ ':' :: ' ' :: v = c0 :: t0
      ∧ (c0 == ' ' || c0 == '	') = false := by
    cases n with
    | nil => exact ⟨':', ' ' :: v, rfl, by decide⟩
    | cons a as =>
      have ha := hh a rfl
      exact ⟨a, as ++ ':' :: ' ' :: v, rfl, by simp [ha.1, ha.2]⟩
  rw [hct] at hfind htake hdrop ⊢
  unfold handleHeaderLine
  simp only []
  rw [hws]
  rw [if_neg (show ¬(false = true) by simp)]
  rw [hfind]
  simp only []
  rw [htake, hdrop]

/-- When no header name matches, the Content-Length scan keeps the current
counter. -/
theorem scanCL_no_match : ∀ (hs : List (List Char × List Char)) (cur : Nat),
    (∀ nf ∈ hs, case_insensitive_equals nf.1 "Content-Length".data = false) →
    scanCL hs cur = some cur := by
  intro hs
  induction hs with
  | nil => intro cur _; rfl
  | cons nf t ih =>
    intro cur h
    obtain ⟨n, v⟩ := nf
    have hf := h (n, v) (by simp)
    simp only [scanCL]
    rw [hf]
    rw [if_neg (show ¬(false = true) by simp)]
    exact ih cur (fun x hx => h x (by simp [hx]))

/-- When some name matches and every matching header's value converts to
`L < 2^32`, the scan ends with `L`. -/
theorem scanCL_found : ∀ (hs : List (List Char × List Char)) (cur L : Nat),
    L < 2 ^ 32 →
    (∀ nf ∈ hs, case_insensitive_equals nf.1 "Content-Length".data = true →
      stoulM nf.2 = some L) →
    (∃ nf ∈ hs, case_insensitive_equals nf.1 "Content-Length".data = true) →
    scanCL hs cur = some L := by
  intro hs
  induction hs with
  | nil => intro cur L _ _ hex; simp at hex
  | cons nf t ih =>
    intro cur L hL hall hex
    obtain ⟨n, v⟩ := nf
    by_cases hm : case_insensitive_equals n "Content-Length".data = true
    · have hst := hall (n, v) (by simp) hm
      simp only [scanCL]
      rw [if_pos hm, hst]
      simp only []
      rw [Nat.mod_eq_of_lt hL]
      by_cases hex2 : ∃ nf ∈ t,
          case_insensitive_equals nf.1 "Content-Length".data = true
      · exact ih L L hL (fun x hx hc => hall x (by simp [hx]) hc) hex2
      · push_neg at hex2
        exact scanCL_no_match t L (fun x hx => by simpa using hex2 x hx)
    · simp only [scanCL]
      rw [if_neg hm]
      have hex' : ∃ nf ∈ t,
          case_insensitive_equals nf.1 "Content-Length".data = true := by
        obtain ⟨x, hx, hcx⟩ := hex
        rcases List.mem_cons.mp hx with h1 | h2
        · rw [h1] at hcx; exact absurd hcx hm
        · exact ⟨x, h2, hcx⟩
      exact ih cur L hL (fun x hx hc => hall x (by simp [hx]) hc) hex'

/-- When some matching header's value fails conversion, the scan throws
(the first such match raises; earlier matches convert and continue). -/
theorem scanCL_exn : ∀ (hs : List (List Char × List Char)) (cur : Nat),
    (∃ nf ∈ hs, case_insensitive_equals nf.1 "Content-Length".data = true
      ∧ stoulM nf.2 = none) →
    scanCL hs cur = none := by
  intro hs
  induction hs with
  | nil => intro cur hex; simp at hex
  | cons nf t ih =>
    intro cur hex
    obtain ⟨n, v⟩ := nf
    by_cases hm : case_insensitive_equals n "Content-Length".data = true
    · simp only [scanCL]
      rw [if_pos hm]
      cases hst : stoulM v with
      | none => rfl
      | some x =>
        simp only []
        apply ih
        obtain ⟨y, hy, hcy, hny⟩ := hex
        rcases List.mem_cons.mp hy with h1 | h2
        · rw [h1] at hny
          exact absurd hny (by simp [hst])
        · exact ⟨y, h2, hcy, hny⟩
    · simp only [scanCL]
      rw [if_neg hm]
      apply ih
      obtain ⟨y, hy, hcy, hny⟩ := hex
      rcases List.mem_cons.mp hy with h1 | h2
      · rw [h1] at hcy; exact absurd hcy hm
      · exact ⟨y, h2, hcy, hny⟩

/-- Feeding a block of well-formed header lines in `HeaderLine` mode
appends each raw parsed pair (name, `' '`-prefixed value) in order. -/
theorem parse_headers : ∀ (hs : List (List Char × List Char))
    (s : IncomingRequest) (rest : List Char),
    s.mode = .HeaderLine → s.line = [] →
    (∀ nf ∈ hs, ':' ∉ nf.1 ∧ '
' ∉ nf.1 ∧ '
' ∉ nf.2
      ∧ (∀ c, nf.1.head? = some c → c ≠ ' ' ∧ c ≠ '	')) →
    parse_bytes s ((hs.map serializeHeader).flatten ++ rest)
      = parse_bytes
          { s with headers := s.headers ++ hs.map (fun nf => (nf.1, ' ' :: nf.2)) }
          rest := by
  intro hs
  induction hs with
  | nil =>
    intro s rest _ _ _
    simp only [List.map_nil, List.flatten_nil, List.nil_append, List.append_nil]
  | cons nf t ih =>
    intro s rest hm hline hwf
    obtain ⟨n, v⟩ := nf
    obtain ⟨m0, u0, hs0, b0, mo0, cr0, li0⟩ := s
    simp only [] at hm hline
    cases hm
    cases hline
    obtain ⟨hc, hn1, hn2, hh⟩ := hwf (n, v) (by simp)
    have harg : ((serializeHeader (n, v) :: t.map serializeHeader).flatten ++ rest :
          List Char)
        = (n ++ ':' :: ' ' :: v) ++ crlf ++ ((t.map serializeHeader).flatten ++ rest) := by
      simp [serializeHeader]
    rw [List.map_cons, harg]
    rw [parse_line ⟨m0, u0, hs0, b0, .HeaderLine, cr0, []⟩ (n ++ ':' :: ' ' :: v)
        ((t.map serializeHeader).flatten ++ rest) (by simp) rfl
        (by
          simp only [List.mem_append, List.mem_cons]
          rintro (h1 | h2 | h3 | h4)
          · exact hn1 h1
          · exact absurd h2 (by decide)
          · exact absurd h3 (by decide)
          · exact hn2 h4)]
    rw [if_neg (show ¬(Mode.HeaderLine = Mode.RequestLine) by simp)]
    rw [handleHeaderLine_header ⟨m0, u0, hs0, b0, .HeaderLine, cr0, []⟩ n v hc hh]
    simp only [Option.toList]
    rw [addFinished_nil]
    rw [ih ⟨m0, u0, hs0 ++ [(n, ' ' :: v)], b0, .HeaderLine, cr0, []⟩ rest rfl rfl
        (fun x hx => hwf x (by simp [hx]))]
    simp [List.append_assoc]

/-- In `Body` mode with exactly the expected number of bytes arriving, the
request completes with those bytes appended to the body and the parser
resets. -/
theorem parse_body : ∀ (bl : List Char) (s : IncomingRequest),
    s.mode = .Body → s.content_remains = bl.length → bl ≠ [] →
    parse_bytes s bl
      = .ok .init [⟨s.method, s.url, s.headers, s.body ++ bl⟩] := by
  intro bl
  induction bl with
  | nil => intro s _ _ hne; exact absurd rfl hne
  | cons c t ih =>
    intro s hm hcr _
    obtain ⟨m, u, hs, b, mo, cr, li⟩ := s
    simp only [] at hm hcr
    cases hm
    cases hcr
    simp only [parse_bytes]
    unfold parseChar
    simp only []
    rw [if_neg (by simp)]
    cases t with
    | nil =>
      rw [if_pos (by simp)]
      simp [parse_bytes, POut.addFinished]
    | cons c2 t2 =>
      rw [if_neg (by simp)]
      have hlen : (c :: c2 :: t2).length - 1 = (c2 :: t2).length := by simp
      rw [hlen]
      simp only [Option.toList]
      rw [ih ⟨m, u, hs, b ++ [c], .Body, (c2 :: t2).length, li⟩ rfl rfl (by simp)]
      simp [POut.addFinished, List.append_assoc]

/-- Folding is transparent to the single space the serializer places after
the colon. -/
theorem foldValue_space (v : List Char) : foldValue (' ' :: v) = foldValue v := rfl

/-- The blank line at the header/body boundary dispatches to the
header-line handler with the empty line. -/
theorem parse_boundary (s : IncomingRequest) (rest : List Char)
    (hm : s.mode = .HeaderLine) (hline : s.line = []) :
    parse_bytes s (crlf ++ rest)
      = match handleHeaderLine s [] with
        | .ok s' r? => (parse_bytes s' rest).addFinished r?.toList
        | .fail => .fail []
        | .exn => .exn []
        | .assertFail => .assertFail [] := by
  have h := parse_line s [] rest (by rw [hm]; simp) hline (by simp)
  rw [show ([] : List Char) ++ crlf ++ rest = crlf ++ rest by simp] at h
  rw [h, hm]
  rw [if_neg (by simp)]

/-- **C6.** For every well-formed request byte sequence — request line
`METHOD SP URL SP version` with `version` beginning `HTTP/1.`, header
lines `Name: value`, blank-line separator, body of exactly Content-Length
bytes — carrying an explicit numeric `Content-Length` (every header whose
name matches case-insensitively converts to the body length, and one
exists), feeding the bytes to `parse_bytes` returns true (outcome `.ok`)
and delivers the parsed request exactly once, with method, url, ordered
header list, and body identical to those serialized. -/
theorem parse_roundtrip (method url version body : List Char)
    (hs : List (List Char × List Char))
    (hm_sp : ' ' ∉ method) (hm_nl : '
' ∉ method)
    (hu_sp : ' ' ∉ url) (hu_nl : '
' ∉ url)
    (hv7 : version.take 7 = "HTTP/1.".data) (hv_nl : '
' ∉ version)
    (hhwf : ∀ nf ∈ hs, ':' ∉ nf.1 ∧ '
' ∉ nf.1 ∧ '
' ∉ nf.2
      ∧ (∀ c, nf.1.head? = some c → c ≠ ' ' ∧ c ≠ '	'))
    (hfold : ∀ nf ∈ hs, foldValue nf.2 = nf.2)
    (hcl_ex : ∃ nf ∈ hs, case_insensitive_equals nf.1 "Content-Length".data = true)
    (hcl_all : ∀ nf ∈ hs, case_insensitive_equals nf.1 "Content-Length".data = true →
      stoulM nf.2 = some body.length)
    (hlen : body.length < 2 ^ 32) :
    parse_bytes .init (serializeRequest method url version hs body)
      = .ok .init [⟨method, url, hs, body⟩] := by
  have hshape : serializeRequest method url version hs body
      = (method ++ ' ' :: url ++ ' ' :: version) ++ crlf
        ++ ((hs.map serializeHeader).flatten ++ (crlf ++ body)) := by
    simp [serializeRequest, crlf]
  have hnA : '
' ∉ method ++ ' ' :: url ++ ' ' :: version := by
    simp only [List.mem_append, List.mem_cons, not_or]
    refine ⟨⟨hm_nl, ?_, hu_nl⟩, ?_, hv_nl⟩ <;> decide
  rw [hshape]
  rw [parse_line .init (method ++ ' ' :: url ++ ' ' :: version)
      ((hs.map serializeHeader).flatten ++ (crlf ++ body)) (by decide) rfl hnA]
  rw [show IncomingRequest.init.mode = Mode.RequestLine from rfl]
  rw [if_pos rfl]
  rw [handleRequestLine_wf .init method url version hm_sp hu_sp hv7]
  simp only [Option.toList]
  rw [addFinished_nil]
  show (parse_bytes ⟨method, url, [], [], .HeaderLine, 0, []⟩
      ((hs.map serializeHeader).flatten ++ (crlf ++ body))) = _
  rw [parse_headers hs ⟨method, url, [], [], .HeaderLine, 0, []⟩ (crlf ++ body)
      rfl rfl hhwf]
  show parse_bytes ⟨method, url, hs.map fun nf => (nf.1, ' ' :: nf.2), [],
      .HeaderLine, 0, []⟩ (crlf ++ body) = _
  rw [parse_boundary ⟨method, url, hs.map fun nf => (nf.1, ' ' :: nf.2), [],
      .HeaderLine, 0, []⟩ body rfl rfl]
  unfold handleHeaderLine
  simp only []
  have hfoldmap : ((hs.map fun nf => (nf.1, ' ' :: nf.2)).map
      fun nf => (nf.1, foldValue nf.2)) = hs := by
    rw [List.map_map]
    have : ∀ nf ∈ hs, ((fun nf => (nf.1, foldValue nf.2)) ∘
        fun nf => (nf.1, ' ' :: nf.2)) nf = id nf := by
      intro nf hnf
      have hf := hfold nf hnf
      simp only [Function.comp_apply, id_eq, foldValue_space, hf]
    rw [List.map_congr_left this, List.map_id]
  rw [hfoldmap]
  rw [scanCL_found hs 0 body.length hlen hcl_all hcl_ex]
  simp only []
  by_cases hb : body.length = 0
  · have hbody : body = [] := List.length_eq_zero.mp hb
    subst hbody
    rw [if_pos (by simp)]
    simp [parse_bytes, POut.addFinished]
  · rw [if_neg (by simpa using hb)]
    simp only [Option.toList]
    rw [addFinished_nil]
    rw [parse_body body ⟨method, url, hs, [], .Body, body.length, []⟩ rfl rfl
        (by intro e; exact hb (by simp [e]))]
    simp

/-- Witness for C6 on a concrete well-formed request with a body. -/
theorem parse_roundtrip_witness :
    parse_bytes .init (serializeRequest "GET".data "/x".data "HTTP/1.1".data
        [("Content-Length".data, "4".data)] "hody".data)
      = .ok .init [⟨"GET".data, "/x".data,
          [("Content-Length".data, "4".data)], "hody".data⟩] :=
  parse_roundtrip "GET".data "/x".data "HTTP/1.1".data "hody".data
    [("Content-Length".data, "4".data)]
    (by decide) (by decide) (by decide) (by decide) (by decide) (by decide)
    (by decide) (by decide) (by decide) (by decide) (by decide)

/-- **C1** (amended).  On a well-formed request whose header block carries
a `Content-Length` header with a malformed (non-numeric, per `std::stoul`)
value, the parser does **not** default the count to 0 and complete: at the
header/body boundary `std::stoul` throws, the exception propagates out of
`parse_bytes` (outcome `.exn`), the completion callback is never invoked
and no boolean is returned. -/
theorem malformed_content_length_exn (method url version body : List Char)
    (hs : List (List Char × List Char))
    (hm_sp : ' ' ∉ method) (hm_nl : '
' ∉ method)
    (hu_sp : ' ' ∉ url) (hu_nl : '
' ∉ url)
    (hv7 : version.take 7 = "HTTP/1.".data) (hv_nl : '
' ∉ version)
    (hhwf : ∀ nf ∈ hs, ':' ∉ nf.1 ∧ '
' ∉ nf.1 ∧ '
' ∉ nf.2
      ∧ (∀ c, nf.1.head? = some c → c ≠ ' ' ∧ c ≠ '	'))
    (hfold : ∀ nf ∈ hs, foldValue nf.2 = nf.2)
    (hcl_bad : ∃ nf ∈ hs, case_insensitive_equals nf.1 "Content-Length".data = true
      ∧ stoulM nf.2 = none) :
    parse_bytes .init (serializeRequest method url version hs body)
      = .exn [] := by
  have hshape : serializeRequest method url version hs body
      = (method ++ ' ' :: url ++ ' ' :: version) ++ crlf
        ++ ((hs.map serializeHeader).flatten ++ (crlf ++ body)) := by
    simp [serializeRequest, crlf]
  have hnA : '
' ∉ method ++ ' ' :: url ++ ' ' :: version := by
    simp only [List.mem_append, List.mem_cons, not_or]
    refine ⟨⟨hm_nl, ?_, hu_nl⟩, ?_, hv_nl⟩ <;> decide
  rw [hshape]
  rw [parse_line .init (method ++ ' ' :: url ++ ' ' :: version)
      ((hs.map serializeHeader).flatten ++ (crlf ++ body)) (by decide) rfl hnA]
  rw [show IncomingRequest.init.mode = Mode.RequestLine from rfl]
  rw [if_pos rfl]
  rw [handleRequestLine_wf .init method url version hm_sp hu_sp hv7]
  simp only [Option.toList]
  rw [addFinished_nil]
  show (parse_bytes ⟨method, url, [], [], .HeaderLine, 0, []⟩
      ((hs.map serializeHeader).flatten ++ (crlf ++ body))) = _
  rw [parse_headers hs ⟨method, url, [], [], .HeaderLine, 0, []⟩ (crlf ++ body)
      rfl rfl hhwf]
  show parse_bytes ⟨method, url, hs.map fun nf => (nf.1, ' ' :: nf.2), [],
      .HeaderLine, 0, []⟩ (crlf ++ body) = _
  rw [parse_boundary ⟨method, url, hs.map fun nf => (nf.1, ' ' :: nf.2), [],
      .HeaderLine, 0, []⟩ body rfl rfl]
  unfold handleHeaderLine
  simp only []
  have hfoldmap : ((hs.map fun nf => (nf.1, ' ' :: nf.2)).map
      fun nf => (nf.1, foldValue nf.2)) = hs := by
    rw [List.map_map]
    have : ∀ nf ∈ hs, ((fun nf => (nf.1, foldValue nf.2)) ∘
        fun nf => (nf.1, ' ' :: nf.2)) nf = id nf := by
      intro nf hnf
      have hf := hfold nf hnf
      simp only [Function.comp_apply, id_eq, foldValue_space, hf]
    rw [List.map_congr_left this, List.map_id]
  rw [hfoldmap]
  rw [scanCL_exn hs 0 hcl_bad]

/-- Shapes a live two-slot connection can be in, given which handles have
finalized: slots hold their serialized data once finalized, only the head
is ever consumed, and consumed prefixes have moved to `out`. -/
def QShape (d1 d2 : List Char) (fin1 fin2 : Bool) (q : List (Nat × Msg))
    (out : List Char) : Prop :=
  (fin1 = false ∧ fin2 = false ∧ q = [(1, ⟨false, []⟩), (2, ⟨false, []⟩)] ∧ out = [])
  ∨ (fin1 = true ∧ fin2 = false
      ∧ ∃ x, q = [(1, ⟨true, x⟩), (2, ⟨false, []⟩)] ∧ out ++ x = d1)
  ∨ (fin1 = true ∧ fin2 = false ∧ q = [(2, ⟨false, []⟩)] ∧ out = d1)
  ∨ (fin1 = false ∧ fin2 = true
      ∧ q = [(1, ⟨false, []⟩), (2, ⟨true, d2⟩)] ∧ out = [])
  ∨ (fin1 = true ∧ fin2 = true
      ∧ ∃ x, q = [(1, ⟨true, x⟩), (2, ⟨true, d2⟩)] ∧ out ++ x = d1)
  ∨ (fin1 = true ∧ fin2 = true ∧ ∃ y, q = [(2, ⟨true, y⟩)] ∧ out ++ y = d1 ++ d2)
  ∨ (fin1 = true ∧ fin2 = true ∧ q = [] ∧ out = d1 ++ d2)

/-- System invariant: on a live connection the queue is in a legal shape;
after teardown the emitted bytes stay a prefix of `d1 ++ d2`. -/
def QInv (d1 d2 : List Char) (s : ConnState) : Prop :=
  (s.conn = none → ∃ t, s.out ++ t = d1 ++ d2)
  ∧ (∀ q, s.conn = some q → QShape d1 d2 s.fin1 s.fin2 q s.out)

/-- Every legal shape keeps `out` a prefix of `d1 ++ d2`. -/
theorem QShape_prefix {d1 d2 : List Char} {fin1 fin2 : Bool}
    {q : List (Nat × Msg)} {out : List Char}
    (h : QShape d1 d2 fin1 fin2 q out) : ∃ t, out ++ t = d1 ++ d2 := by
  rcases h with ⟨_, _, _, h4⟩ | ⟨_, _, x, _, h4⟩ | ⟨_, _, _, h4⟩ | ⟨_, _, _, h4⟩
    | ⟨_, _, x, _, h4⟩ | ⟨_, _, y, _, h4⟩ | ⟨_, _, _, h4⟩
  · exact ⟨d1 ++ d2, by simp [h4]⟩
  · exact ⟨x ++ d2, by rw [← List.append_assoc, h4]⟩
  · exact ⟨d2, by rw [h4]⟩
  · exact ⟨d1 ++ d2, by simp [h4]⟩
  · exact ⟨x ++ d2, by rw [← List.append_assoc, h4]⟩
  · exact ⟨y, h4⟩
  · exact ⟨[], by simp [h4]⟩

/-- The two-slot initial state satisfies the invariant. -/
theorem QInv_init (d1 d2 : List Char) : QInv d1 d2 initTwo := by
  constructor
  · intro h; exact absurd h (by simp [initTwo, appendMessage])
  · intro q hq
    left
    simp only [initTwo, appendMessage] at hq
    cases hq
    exact ⟨rfl, rfl, rfl, rfl⟩

/-- One event preserves the invariant. -/
theorem step_QInv (d1 d2 : List Char) (s s' : ConnState) (a : Act)
    (hinv : QInv d1 d2 s) (h : step d1 d2 s a = some s') : QInv d1 d2 s' := by
  obtain ⟨hnone, hsome⟩ := hinv
  cases a with
  | finalize1 =>
    unfold step at h
    simp only [] at h
    split at h
    · exact absurd h (by simp)
    · rename_i hf1
      simp only [Option.some.injEq] at h
      cases h
      cases hc : s.conn with
      | none =>
        refine ⟨fun _ => by simpa using hnone hc, fun q hq => ?_⟩
        simp at hq
      | some q0 =>
        have hs0 := hsome q0 hc
        refine ⟨fun hcn => ?_, fun q hq => ?_⟩
        · simp at hcn
        · simp only [Option.map_some', Option.some.injEq] at hq
          subst hq
          have hf1' : s.fin1 = false := by
            cases hb : s.fin1
            · rfl
            · exact absurd rfl (hb ▸ hf1)
          rcases hs0 with ⟨h1, h2, h3, h4⟩ | ⟨h1, _, _⟩ | ⟨h1, _, _⟩
            | ⟨h1, h2, h3, h4⟩ | ⟨h1, _, _⟩ | ⟨h1, _, _⟩ | ⟨h1, _, _⟩
          · cases h3
            right; left
            exact ⟨rfl, h2, d1, by simp [writeSlot], by simp [h4]⟩
          · exact absurd h1 (by simp [hf1'])
          · exact absurd h1 (by simp [hf1'])
          · cases h3
            right; right; right; right; left
            exact ⟨rfl, h2, d1, by simp [writeSlot], by simp [h4]⟩
          · exact absurd h1 (by simp [hf1'])
          · exact absurd h1 (by simp [hf1'])
          · exact absurd h1 (by simp [hf1'])
  | finalize2 =>
    unfold step at h
    simp only [] at h
    split at h
    · exact absurd h (by simp)
    · rename_i hf2
      simp only [Option.some.injEq] at h
      cases h
      cases hc : s.conn with
      | none =>
        refine ⟨fun _ => by simpa using hnone hc, fun q hq => ?_⟩
        simp at hq
      | some q0 =>
        have hs0 := hsome q0 hc
        refine ⟨fun hcn => ?_, fun q hq => ?_⟩
        · simp at hcn
        · simp only [Option.map_some', Option.some.injEq] at hq
          subst hq
          have hf2' : s.fin2 = false := by
            cases hb : s.fin2
            · rfl
            · exact absurd rfl (hb ▸ hf2)
          rcases hs0 with ⟨h1, h2, h3, h4⟩ | ⟨h1, h2, x, h3, h4⟩ | ⟨h1, h2, h3, h4⟩
            | ⟨_, h2, _⟩ | ⟨_, h2, _⟩ | ⟨_, h2, _⟩ | ⟨_, h2, _⟩
          · cases h3
            right; right; right; left
            exact ⟨h1, rfl, by simp [writeSlot], h4⟩
          · cases h3
            right; right; right; right; left
            exact ⟨h1, rfl, x, by simp [writeSlot], h4⟩
          · cases h3
            right; right; right; right; right; left
            exact ⟨h1, rfl, d2, by simp [writeSlot], by rw [h4]⟩
          · exact absurd h2 (by simp [hf2'])
          · exact absurd h2 (by simp [hf2'])
          · exact absurd h2 (by simp [hf2'])
          · exact absurd h2 (by simp [hf2'])
  | teardown =>
    unfold step at h
    simp only [] at h
    simp only [Option.some.injEq] at h
    cases h
    refine ⟨fun _ => ?_, fun q hq => by simpa using hq⟩
    cases hc : s.conn with
    | none => simpa using hnone hc
    | some q0 => simpa using QShape_prefix (hsome q0 hc)
  | send n =>
    unfold step at h
    simp only [] at h
    cases hc : s.conn with
    | none => rw [hc] at h; simp at h
    | some q0 =>
      rw [hc] at h
      have hs0 := hsome q0 hc
      rcases hs0 with ⟨h1, h2, h3, h4⟩ | ⟨h1, h2, x, h3, h4⟩ | ⟨h1, h2, h3, h4⟩
        | ⟨h1, h2, h3, h4⟩ | ⟨h1, h2, x, h3, h4⟩ | ⟨h1, h2, y, h3, h4⟩
        | ⟨h1, h2, h3, h4⟩
      · cases h3; simp only [] at h; rw [if_neg (by simp)] at h; exact absurd h (by simp)
      · cases h3
        simp only [] at h
        split at h
        · rename_i hcond
          simp only [Option.some.injEq] at h
          cases h
          refine ⟨fun hcn => by simpa using hcn, fun q hq => ?_⟩
          simp only [Option.some.injEq] at hq
          cases hq
          by_cases he : (x.drop n).isEmpty
          · rw [if_pos he]
            right; right; left
            refine ⟨h1, h2, rfl, ?_⟩
            have hxn : x.drop n = [] := by simpa [List.isEmpty_iff] using he
            have : x.take n = x := by
              have := List.take_append_drop n x
              rw [hxn, List.append_nil] at this
              exact this
            rw [this, h4]
          · rw [if_neg he]
            right; left
            refine ⟨h1, h2, x.drop n, rfl, ?_⟩
            rw [List.append_assoc, List.take_append_drop, h4]
        · exact absurd h (by simp)
      · cases h3; simp only [] at h; rw [if_neg (by simp)] at h; exact absurd h (by simp)
      · cases h3; simp only [] at h; rw [if_neg (by simp)] at h; exact absurd h (by simp)
      · cases h3
        simp only [] at h
        split at h
        · rename_i hcond
          simp only [Option.some.injEq] at h
          cases h
          refine ⟨fun hcn => by simpa using hcn, fun q hq => ?_⟩
          simp only [Option.some.injEq] at hq
          cases hq
          by_cases he : (x.drop n).isEmpty
          · rw [if_pos he]
            right; right; right; right; right; left
            refine ⟨h1, h2, d2, rfl, ?_⟩
            have hxn : x.drop n = [] := by simpa [List.isEmpty_iff] using he
            have hx : x.take n = x := by
              have := List.take_append_drop n x
              rw [hxn, List.append_nil] at this
              exact this
            rw [hx, h4]
          · rw [if_neg he]
            right; right; right; right; left
            refine ⟨h1, h2, x.drop n, rfl, ?_⟩
            rw [List.append_assoc, List.take_append_drop, h4]
        · exact absurd h (by simp)
      · cases h3
        simp only [] at h
        split at h
        · rename_i hcond
          simp only [Option.some.injEq] at h
          cases h
          refine ⟨fun hcn => by simpa using hcn, fun q hq => ?_⟩
          simp only [Option.some.injEq] at hq
          cases hq
          by_cases he : (y.drop n).isEmpty
          · rw [if_pos he]
            right; right; right; right; right; right
            refine ⟨h1, h2, rfl, ?_⟩
            have hyn : y.drop n = [] := by simpa [List.isEmpty_iff] using he
            have hy : y.take n = y := by
              have := List.take_append_drop n y
              rw [hyn, List.append_nil] at this
              exact this
            rw [hy, h4]
          · rw [if_neg he]
            right; right; right; right; right; left
            refine ⟨h1, h2, y.drop n, rfl, ?_⟩
            rw [List.append_assoc, List.take_append_drop, h4]
        · exact absurd h (by simp)
      · cases h3; simp only [] at h; exact absurd h (by simp)

/-- A whole run preserves the invariant. -/
theorem runQueue_QInv (d1 d2 : List Char) : ∀ (acts : List Act) (s s' : ConnState),
    QInv d1 d2 s → runQueue d1 d2 s acts = some s' → QInv d1 d2 s' := by
  intro acts
  induction acts with
  | nil =>
    intro s s' hinv h
    simp only [runQueue, Option.some.injEq] at h
    cases h
    exact hinv
  | cons a rest ih =>
    intro s s' hinv h
    simp only [runQueue] at h
    match hstep : step d1 d2 s a with
    | none => rw [hstep] at h; simp at h
    | some s1 =>
      rw [hstep] at h
      simp only [] at h
      exact ih s1 s' (step_QInv d1 d2 s s1 a hinv hstep) h

/-- **C4.** The two slots of two pipelined requests are appended in
request-parse-completion order (the `appendMessage` walk puts slot 1 before
slot 2), and only the head slot's bytes are ever written: for every
sequence of finalize/send/teardown events from that state — in particular
regardless of which response handle finalizes first — the bytes sent are a
prefix of `d1 ++ d2`, and a fully drained queue has sent exactly
`d1 ++ d2`: every byte of the first response precedes every byte of the
second. -/
theorem pipelined_in_order (d1 d2 : List Char) (acts : List Act) (s' : ConnState)
    (h : runQueue d1 d2 initTwo acts = some s') :
    appendMessage 2 (appendMessage 1 []) = [(1, ⟨false, []⟩), (2, ⟨false, []⟩)]
    ∧ (∃ t, s'.out ++ t = d1 ++ d2)
    ∧ (s'.conn = some [] → s'.out = d1 ++ d2) := by
  have hinv := runQueue_QInv d1 d2 acts initTwo s' (QInv_init d1 d2) h
  obtain ⟨hnone, hsome⟩ := hinv
  refine ⟨rfl, ?_, ?_⟩
  · cases hc : s'.conn with
    | none => exact hnone hc
    | some q => exact QShape_prefix (hsome q hc)
  · intro hc
    rcases hsome [] hc with ⟨_, _, h3, _⟩ | ⟨_, _, x, h3, _⟩ | ⟨_, _, h3, _⟩
      | ⟨_, _, h3, _⟩ | ⟨_, _, x, h3, _⟩ | ⟨_, _, y, h3, _⟩ | ⟨_, _, _, h4⟩
    · exact absurd h3 (by simp)
    · exact absurd h3 (by simp)
    · exact absurd h3 (by simp)
    · exact absurd h3 (by simp)
    · exact absurd h3 (by simp)
    · exact absurd h3 (by simp)
    · exact h4

/-- Witness for C4: finalize the second handle first, then the first, then
drain; the first response's bytes still precede the second's. -/
theorem pipelined_in_order_witness :
    runQueue ['A'] ['B', 'C'] initTwo
        [.finalize2, .finalize1, .send 1, .send 1, .send 1]
      = some ⟨some [], true, true, ['A', 'B', 'C']⟩
    ∧ (∃ t, (['A', 'B', 'C'] : List Char) ++ t = ['A'] ++ ['B', 'C']) := by
  refine ⟨by decide, ?_⟩
  have h := pipelined_in_order ['A'] ['B', 'C']
    [.finalize2, .finalize1, .send 1, .send 1, .send 1]
    ⟨some [], true, true, ['A', 'B', 'C']⟩ (by decide)
  exact h.2.1

/-- Witness for the amended C1 on a concrete request carrying
`Content-Length: abc`. -/
theorem malformed_content_length_exn_witness :
    parse_bytes .init (serializeRequest "GET".data "/".data "HTTP/1.1".data
        [("Content-Length".data, "abc".data)] [])
      = .exn [] :=
  malformed_content_length_exn "GET".data "/".data "HTTP/1.1".data []
    [("Content-Length".data, "abc".data)]
    (by decide) (by decide) (by decide) (by decide) (by decide) (by decide)
    (by decide) (by decide) (by decide)

end Http
